import Mathlib

/-!
Verification of the Transearly translation worker (`TranslatorProcessor` in
`translator.processor.ts`) and the direct image/audio paths
(`TranslatorService` in `translator.service.ts`).

Modelling conventions:
* JavaScript strings are modelled as Lean `String`s; character-level
  operations (split, trim, lower-casing, substring) are implemented over
  `String.data : List Char` so that all definitions are executable and
  kernel-reducible.
* Remote calls (the OpenRouter chat endpoint, Google Vision OCR, Google
  Speech-to-Text) and external libraries (pdf loading, mammoth, the text
  splitter, the font file read) are modelled as oracle parameters: a
  `Nat → String → Option String` oracle for the per-chunk translation call
  (`none` models a thrown error or a missing `choices[0].message.content`),
  and `Except String _` values for remote/library results that the worker
  merely awaits.
* JavaScript falsiness of strings (`if (!s)`) is modelled as `s = ""`.
-/

namespace Transearly

/-- ASCII lower-casing of one character, mirroring `String.prototype.toLowerCase`
on the ASCII range used by file extensions. -/
def asciiLower (c : Char) : Char :=
  if 'A' ≤ c ∧ c ≤ 'Z' then Char.ofNat (c.toNat + 32) else c

/-- Lower-case every character of a string. -/
def lowerString (s : String) : String :=
  String.mk (s.data.map asciiLower)

/-- Test whether `pat` is an initial segment of `cs`. -/
def startsWith : List Char → List Char → Bool
  | [], _ => true
  | _ :: _, [] => false
  | a :: as, b :: bs => a == b && startsWith as bs

/-- Locate the first occurrence of the nonempty separator `sep` inside `cs`,
returning the characters before it and the characters after it. -/
def splitFirst (sep : List Char) : List Char → Option (List Char × List Char)
  | [] => none
  | c :: cs =>
    if startsWith sep (c :: cs) then
      some ([], (c :: cs).drop sep.length)
    else
      match splitFirst sep cs with
      | none => none
      | some (pre, post) => some (c :: pre, post)

/-- Fuelled worker for `splitOnSep`; the fuel is an upper bound on the number
of separator occurrences, so `cs.length` fuel is always enough. -/
def splitGo (sep : List Char) : Nat → List Char → List (List Char)
  | 0, cs => [cs]
  | fuel + 1, cs =>
    match splitFirst sep cs with
    | none => [cs]
    | some (pre, post) => pre :: splitGo sep fuel post

/-- JavaScript `String.prototype.split` with a nonempty string separator
(the separator occurrences are removed and the pieces kept, including empty
pieces). -/
def splitOnSep (sep : List Char) (cs : List Char) : List (List Char) :=
  if sep = [] then [cs] else splitGo sep cs.length cs

/-- JavaScript `split` lifted to `String`. -/
def jsSplit (sep : String) (s : String) : List String :=
  (splitOnSep sep.data s.data).map String.mk

/-- Interleave a separator between list elements (JavaScript `Array.join`). -/
def joinSep (sep : List Char) : List (List Char) → List Char
  | [] => []
  | [x] => x
  | x :: y :: rest => x ++ sep ++ joinSep sep (y :: rest)

/-- JavaScript `Array.prototype.join` lifted to `String`. -/
def jsJoin (sep : String) (xs : List String) : String :=
  String.mk (joinSep sep.data (xs.map String.data))

/-- Whitespace test covering the characters relevant to the modelled inputs
(JavaScript `trim` strips a larger Unicode class; the sources only rely on
space, tab, CR and LF). -/
def isWS (c : Char) : Bool :=
  c == ' ' || c == '\n' || c == '\t' || c == '\r'

/-- JavaScript `String.prototype.trim`. -/
def jsTrim (s : String) : String :=
  String.mk (((s.data.dropWhile isWS).reverse.dropWhile isWS).reverse)

/-- JavaScript `String.prototype.substring(0, n)` / a prefix of `n` characters. -/
def jsTake (n : Nat) (s : String) : String :=
  String.mk (s.data.take n)

/-! ### `path.extname(...).toLowerCase()` (the dispatch key of `handleTranslation`) -/

/-- The basename part of a path: the characters after the last `/`. -/
def afterLastSlash (cs : List Char) : List Char :=
  ((cs.reverse.takeWhile (fun c => !(c == '/'))).reverse)

/-- Node's `path.extname` followed by `toLowerCase`, as used by
`handleTranslation`: the suffix of the basename starting at its last dot,
empty when the basename has no dot or only a leading dot. -/
def extnameLower (name : String) : String :=
  let base := afterLastSlash name.data
  let r := base.reverse.takeWhile (fun c => !(c == '.'))
  if r.length = base.length then ""
  else if r.length + 1 = base.length then ""
  else lowerString (String.mk ('.' :: r.reverse))

/-! ### `translateChunk` and `chunkAndTranslateText` -/

/-- The placeholder produced by `translateChunk`'s catch block:
`` `[Error translating this chunk: ${text.substring(0, 50)}...]` ``. -/
def placeholderFor (text : String) : String :=
  "[Error translating this chunk: " ++ jsTake 50 text ++ "...]"

/-- `translateChunk(text, index, targetLanguage)`. The remote call is the
oracle `remote`: `none` models a thrown request error (or missing
configuration), and `some content` a response whose
`choices[0].message.content` is `content`; an empty `content` is falsy and
raises `Invalid API response structure`, which the same catch block turns
into the placeholder. The function is total: it always returns a string. -/
def translateChunk (remote : Nat → String → Option String)
    (text : String) (index : Nat) : String :=
  match remote index text with
  | none => placeholderFor text
  | some content => if content = "" then placeholderFor text else content

/-- `chunkAndTranslateText`: split the text (the external
`RecursiveCharacterTextSplitter`, modelled as the oracle `split`), translate
every chunk at its index, and rejoin with blank lines. The bounded
concurrency limiter does not affect the value: results are collected in
chunk order by `Promise.all`. -/
def chunkAndTranslateText (split : String → List String)
    (remote : Nat → String → Option String) (text : String) : String :=
  jsJoin "\n\n" ((split text).mapIdx (fun i c => translateChunk remote c i))

/-! ### CSV extraction (`processCsv`) and reconstruction (`createCsv`) -/

/-- Modelled from the spec: the external `csv-parse` call with
`columns: true, skip_empty_lines: true` on simple unquoted input — a header
line naming the columns, empty lines skipped, each data line mapped to a
record pairing header names with that line's comma-separated fields. -/
def parseCsv (input : String) : List (List (String × String)) :=
  match (jsSplit "\n" input).filter (fun l => l ≠ "") with
  | [] => []
  | h :: rest =>
    let headers := jsSplit "," h
    rest.map (fun line => headers.zip (jsSplit "," line))

/-- The serialization step of `processCsv`: `Object.keys(records[0])` joined
with `|||`, each record's values joined with `|||`, records joined with blank
lines. On an empty record list, `records[0]` is `undefined` and
`Object.keys(undefined)` throws a `TypeError`, modelled as `.error`. -/
def csvBlob (records : List (List (String × String))) : Except String String :=
  match records with
  | [] => .error "Cannot convert undefined or null to object"
  | r0 :: _ =>
    let header := jsJoin "|||" (r0.map Prod.fst)
    let rows := records.map (fun r => jsJoin "|||" (r.map Prod.snd))
    .ok (jsJoin "\n\n" (header :: rows))

/-- `processCsv`: parse the buffer, serialize header and rows into the
delimiter-joined blob, then chunk-translate the blob. -/
def processCsv (split : String → List String)
    (remote : Nat → String → Option String) (fileContent : String) :
    Except String String :=
  (csvBlob (parseCsv fileContent)).map (chunkAndTranslateText split remote)

/-- The structural content of each output file kind produced by the
`create*` reconstructors (the byte-level serialization by the external
`pdf-lib` / `docx` / `csv-stringify` / `pptxgenjs` libraries is outside the
model). -/
inductive OutFile
  | pdfFile (lines : List String)
  | docxFile (paragraphs : List String)
  | csvFile (headers : List String) (records : List (List (String × String)))
  | txtFile (content : String)
  | binFile (data : String)
deriving DecidableEq

/-- `createDocx`: one paragraph per blank-line-separated piece. -/
def createDocx (text : String) : OutFile :=
  OutFile.docxFile (jsSplit "\n\n" text)

/-- `createCsv`: the first blank-line-separated line is the header (split on
`|||`, fields trimmed); each later line is a data row mapped positionally
onto the header fields, missing fields becoming `""`. A falsy (empty) header
line yields an empty buffer. -/
def createCsv (translatedText : String) : OutFile :=
  match jsSplit "\n\n" translatedText with
  | [] => OutFile.binFile ""
  | headerLine :: rest =>
    if headerLine = "" then OutFile.binFile ""
    else
      let headers := (jsSplit "|||" headerLine).map jsTrim
      let records := rest.map (fun line =>
        let values := (jsSplit "|||" line).map jsTrim
        headers.mapIdx (fun i h => (h, values.getD i "")))
      OutFile.csvFile headers records

/-- `createTxt`: the translated string verbatim. -/
def createTxt (translatedText : String) : OutFile :=
  OutFile.txtFile translatedText

/-! ### `wrapText` (the PDF line-wrapping pass), modelled over `List Char`

The font metric `font.widthOfTextAtSize(line, fontSize)` is an oracle
`w : List Char → Int`; the source compares it against `maxWidth` with `<`. -/

/-- The word loop of `wrapText`, iterating over the tokens of
`text.replace(/\n/g, ' \n ').split(' ')` while growing `currentLine`. -/
def wrapGo (w : List Char → Int) (maxWidth : Int) :
    List (List Char) → List Char → List (List Char)
  | [], cur => [cur]
  | word :: ws, cur =>
    if word = ['\n'] then cur :: wrapGo w maxWidth ws []
    else
      let lineWithWord := if cur = [] then word else cur ++ ' ' :: word
      if w lineWithWord < maxWidth then wrapGo w maxWidth ws lineWithWord
      else cur :: wrapGo w maxWidth ws word

/-- `text.replace(/\n/g, ' \n ')`. -/
def replNL : List Char → List Char
  | [] => []
  | c :: cs => if c = '\n' then ' ' :: '\n' :: ' ' :: replNL cs else c :: replNL cs

/-- Split on a single-character predicate, keeping empty pieces
(JavaScript `split(' ')`). -/
def splitW (p : Char → Bool) : List Char → List (List Char)
  | [] => [[]]
  | c :: cs =>
    if p c then [] :: splitW p cs
    else
      match splitW p cs with
      | [] => [[c]]
      | t :: ts => (c :: t) :: ts

/-- The split character of the word loop. -/
def isSp (c : Char) : Bool := c == ' '

/-- A white-space separator as seen by the word-level reading of the input
text: the space introduced by `split(' ')` or an explicit newline. -/
def isSep (c : Char) : Bool := c == ' ' || c == '\n'

/-- `wrapText(text, maxWidth, font, fontSize)`. -/
def wrapText (w : List Char → Int) (maxWidth : Int) (text : List Char) :
    List (List Char) :=
  wrapGo w maxWidth (splitW isSp (replNL text)) []

/-- `createPdf`: read the language font (external file read, oracle
`fontRead`), wrap the text against the page width minus both margins, and
draw the lines. Only the line layout is structural. -/
def createPdf (w : List Char → Int) (pageWidth : Int)
    (fontRead : Except String Unit) (text : String) : Except String OutFile :=
  match fontRead with
  | .error e => .error e
  | .ok _ =>
    .ok (OutFile.pdfFile ((wrapText w (pageWidth - 100) text.data).map String.mk))

/-! ### `handleTranslation` (the queue worker) -/

/-- Notifications sent through `EventsGateway.sendJobUpdateToClient`. -/
inductive JobEvent
  | complete (jobId : String) (status : String) (fileName : String)
  | failed (jobId : String) (status : String) (reason : String)
deriving DecidableEq

/-- The oracles a job run depends on: the text splitter, the per-chunk remote
translation outcome, the external extraction libraries for PDF/DOCX, the
whole PPTX and XLSX sub-pipelines (treated as black boxes at this level; the
XLSX pipeline is modelled in detail separately), the font file read used by
`createPdf`, the font metric, the page width, the decoded file content used
by the CSV/TXT branches, and the naming inputs (job id and `Date.now()`). -/
structure JobDeps where
  split : String → List String
  remote : Nat → String → Option String
  pdfExtract : Except String String
  docxExtract : Except String String
  pptxResult : Except String String
  xlsxResult : Except String String
  fontRead : Except String Unit
  widthOf : List Char → Int
  pageWidth : Int
  textContent : String
  jobId : String
  outStamp : String

/-- The observable outcome of one `handleTranslation` run: the notifications
emitted, which per-format extraction paths were entered, and the value
returned to Bull (`.ok fileName`) or the re-raised error (`.error`). -/
structure JobResult where
  events : List JobEvent
  extractorsInvoked : List String
  outcome : Except String String

/-- The output file name `translated-${job.id}-${Date.now()}${fileExtension}`. -/
def outName (d : JobDeps) (ext : String) : String :=
  "translated-" ++ d.jobId ++ "-" ++ d.outStamp ++ ext

/-- A failed run: the catch block emits `translationFailed` with the error's
message and re-throws. -/
def failedRun (d : JobDeps) (invoked : List String) (msg : String) :
    JobResult :=
  { events := [JobEvent.failed d.jobId "failed" msg]
    extractorsInvoked := invoked
    outcome := .error msg }

/-- A completed run: the file is written and `translationComplete` emitted
with status `completed`; the file name is the job's return value. -/
def completedRun (d : JobDeps) (ext : String) : JobResult :=
  { events := [JobEvent.complete d.jobId "completed" (outName d ext)]
    extractorsInvoked := [ext]
    outcome := .ok (outName d ext) }

/-- `handleTranslation`: dispatch on the lower-cased extension of the
declared file name; `.pptx` and `.xlsx`/`.xls` run their own pipelines, the
four chunked-text formats extract a text blob, chunk-translate it (total in
the remote oracle), and reconstruct an output file; any other extension
throws `Unsupported file type: ...` before touching any extractor. -/
def handleTranslation (d : JobDeps) (originalname : String) : JobResult :=
  let ext := extnameLower originalname
  if ext = ".pptx" then
    match d.pptxResult with
    | .error e => failedRun d [ext] e
    | .ok _ => completedRun d ext
  else if ext = ".xlsx" ∨ ext = ".xls" then
    match d.xlsxResult with
    | .error e => failedRun d [ext] e
    | .ok _ => completedRun d ext
  else if ext = ".pdf" ∨ ext = ".docx" ∨ ext = ".csv" ∨ ext = ".txt" then
    let extracted : Except String String :=
      if ext = ".pdf" then d.pdfExtract
      else if ext = ".docx" then d.docxExtract
      else if ext = ".csv" then csvBlob (parseCsv d.textContent)
      else .ok d.textContent
    match extracted with
    | .error e => failedRun d [ext] e
    | .ok fullText =>
      let translated := chunkAndTranslateText d.split d.remote fullText
      let created : Except String OutFile :=
        if ext = ".pdf" then createPdf d.widthOf d.pageWidth d.fontRead translated
        else if ext = ".docx" then .ok (createDocx translated)
        else if ext = ".csv" then .ok (createCsv translated)
        else .ok (createTxt translated)
      match created with
      | .error e => failedRun d [ext] e
      | .ok _ => completedRun d ext
  else
    failedRun d [] ("Unsupported file type: " ++ ext)

/-- Success of the surrounding pipeline stages of the chunked-text path,
per extension: the external extraction library succeeded (PDF/DOCX), the
font file read succeeded (PDF reconstruction), and the CSV parse produced at
least one record. -/
def chunkedPipelineOk (d : JobDeps) (ext : String) : Prop :=
  (ext = ".pdf" → (∃ t, d.pdfExtract = .ok t) ∧ (∃ u, d.fontRead = .ok u))
  ∧ (ext = ".docx" → ∃ t, d.docxExtract = .ok t)
  ∧ (ext = ".csv" → parseCsv d.textContent ≠ [])

/-- Fixed sample dependencies used by concrete witnesses: every remote
translation call fails (`none`), all library stages succeed. -/
def demoDeps : JobDeps :=
  { split := fun t => [t]
    remote := fun _ _ => none
    pdfExtract := .ok ""
    docxExtract := .ok ""
    pptxResult := .ok ""
    xlsxResult := .ok ""
    fontRead := .ok ()
    widthOf := fun cs => Int.ofNat cs.length
    pageWidth := 612
    textContent := "hello"
    jobId := "7"
    outStamp := "1700000000000" }

/-- C1: on the chunked text path (pdf, docx, csv, txt), a per-chunk remote
failure — a thrown call (`none`) or empty content (`some ""`) — makes
`translateChunk` return the placeholder built from the first 50 characters
of the untranslated chunk plus the error marker, and for every remote oracle
whatsoever (in particular one failing on every chunk) `handleTranslation`
still completes, returning a translated file name and emitting a
`translationComplete` notification with status `completed`: an individual
chunk failure never fails the whole job. -/
theorem chunk_failure_never_fails_job :
    (∀ (remote : Nat → String → Option String) (text : String) (i : Nat),
        remote i text = none ∨ remote i text = some "" →
        translateChunk remote text i =
          "[Error translating this chunk: " ++ jsTake 50 text ++ "...]")
    ∧ (∀ (d : JobDeps) (name : String),
        (extnameLower name = ".pdf" ∨ extnameLower name = ".docx" ∨
         extnameLower name = ".csv" ∨ extnameLower name = ".txt") →
        chunkedPipelineOk d (extnameLower name) →
        (handleTranslation d name).outcome = .ok (outName d (extnameLower name)) ∧
        (handleTranslation d name).events =
          [JobEvent.complete d.jobId "completed" (outName d (extnameLower name))]) := by
  constructor
  · intro remote text i h
    rcases h with h | h <;> simp [translateChunk, h, placeholderFor]
  · intro d name hext hok
    obtain ⟨hpdf, hdocx, hcsv⟩ := hok
    rcases hext with h | h | h | h
    · obtain ⟨⟨t, ht⟩, ⟨u, hu⟩⟩ := hpdf h
      simp +decide [handleTranslation, h, ht, hu, createPdf, completedRun]
    · obtain ⟨t, ht⟩ := hdocx h
      simp +decide [handleTranslation, h, ht, completedRun]
    · have hne := hcsv h
      cases hrec : parseCsv d.textContent with
      | nil => exact absurd hrec hne
      | cons r rs =>
        simp +decide [handleTranslation, h, hrec, csvBlob, completedRun]
    · simp +decide [handleTranslation, h, completedRun]

/-- Witness for C1 at concrete inputs: the all-failing oracle on chunk
`"hello"` yields the placeholder, and a `.txt` job whose every chunk fails
still completes with a translated file name. -/
theorem chunk_failure_never_fails_job_witness :
    translateChunk (fun _ _ => none) "hello" 0 =
      "[Error translating this chunk: hello...]"
    ∧ (handleTranslation demoDeps "doc.txt").outcome =
        .ok "translated-7-1700000000000.txt" := by
  constructor
  · have h := chunk_failure_never_fails_job.1 (fun _ _ => none) "hello" 0 (Or.inl rfl)
    rw [h]; decide
  · have h := (chunk_failure_never_fails_job.2 demoDeps "doc.txt"
      (by right; right; right; decide)
      ⟨fun hc => absurd hc (by decide), fun hc => absurd hc (by decide),
       fun hc => absurd hc (by decide)⟩).1
    rw [h]; exact congrArg Except.ok (by decide)

/-- C2: a job whose declared filename has a lower-cased extension outside
the supported set throws before invoking any extractor, emits a
`translationFailed` notification whose reason contains (indeed starts with)
`Unsupported file type`, and re-raises the error to the caller. -/
theorem unsupported_extension_rejected (d : JobDeps) (name : String)
    (h : extnameLower name ∉
      ([".pptx", ".xlsx", ".xls", ".pdf", ".docx", ".csv", ".txt"] : List String)) :
    (handleTranslation d name).outcome =
      .error ("Unsupported file type: " ++ extnameLower name)
    ∧ (handleTranslation d name).events =
        [JobEvent.failed d.jobId "failed"
          ("Unsupported file type: " ++ extnameLower name)]
    ∧ (handleTranslation d name).extractorsInvoked = [] := by
  simp only [List.mem_cons, List.not_mem_nil, or_false, not_or] at h
  obtain ⟨h1, h2, h3, h4, h5, h6, h7⟩ := h
  simp [handleTranslation, h1, h2, h3, h4, h5, h6, h7, failedRun]

/-- Witness for C2: a `.xyz` file is rejected with the
`Unsupported file type` reason, no extractor invoked. -/
theorem unsupported_extension_rejected_witness :
    (handleTranslation demoDeps "file.xyz").outcome =
      .error "Unsupported file type: .xyz"
    ∧ (handleTranslation demoDeps "file.xyz").extractorsInvoked = [] := by
  have h := unsupported_extension_rejected demoDeps "file.xyz" (by decide)
  refine ⟨?_, h.2.2⟩
  rw [h.1]; exact congrArg Except.error (by decide)

/-! ### `processAndCreateXlsx` (the spreadsheet pipeline) -/

/-- One run of a rich-text cell value: an optional font and a text span. -/
structure RichRun where
  font : Option String
  text : String
deriving DecidableEq

/-- The cell value shapes the collection pass distinguishes: a rich
(multi-run) text, a scalar string, a scalar number, or anything else
(formulae, dates, null — contributing no text). -/
inductive CellValue
  | rich (runs : List RichRun)
  | str (s : String)
  | num (n : Int)
  | blank
deriving DecidableEq

/-- The text extracted from a cell by the collection pass: rich-text run
texts concatenated, scalars stringified, empty otherwise. -/
def cellText : CellValue → String
  | .rich runs => String.mk (List.flatten (runs.map (fun r => r.text.data)))
  | .str s => s
  | .num n => toString n
  | .blank => ""

/-- The collected translation candidates: every cell text whose trim is
non-blank, in sheet/row/cell walking order. -/
def collectTexts (cells : List CellValue) : List String :=
  (cells.map cellText).filter (fun t => jsTrim t ≠ "")

/-- First-occurrence deduplication, the JavaScript `[...new Set(xs)]`. -/
def uniqueList : List String → List String
  | [] => []
  | x :: xs => x :: uniqueList (xs.filter (fun y => y ≠ x))
termination_by l => l.length
decreasing_by
  exact Nat.lt_succ_of_le (List.length_filter_le _ _)

/-- The overwrite of one collected cell with its translation: a rich cell
collapses to a single run carrying the first run's font; any other cell
becomes the plain translated string. -/
def setTranslated (c : CellValue) (tr : String) : CellValue :=
  match c with
  | .rich runs =>
    .rich [{ font := match runs with | [] => none | r :: _ => r.font, text := tr }]
  | _ => .str tr

/-- Whether `processAndCreateXlsx` returned the original byte buffer
untouched or re-serialized the patched workbook. -/
inductive XlsxOut
  | original
  | rebuilt (cells : List CellValue)
deriving DecidableEq

/-- `processAndCreateXlsx`, over the flattened list of the workbook's cells:
collect non-blank cell texts, return the original buffer when none exist,
otherwise translate each distinct text once (at its position in the
deduplicated list), build the text-to-translation map, and overwrite every
collected cell with the mapped translation (skipping, as the source does,
map misses and falsy empty translations). The second component is the list
of texts actually sent to the translation call, in call order. -/
def processAndCreateXlsx (remote : Nat → String → Option String)
    (cells : List CellValue) : XlsxOut × List String :=
  let collected := collectTexts cells
  if collected = [] then (XlsxOut.original, [])
  else
    let uniq := uniqueList collected
    let translated := uniq.mapIdx (fun i t => translateChunk remote t i)
    let tmap := uniq.zip translated
    let final := cells.map (fun c =>
      let t := cellText c
      if jsTrim t = "" then c
      else
        match List.lookup t tmap with
        | none => c
        | some tr => if tr = "" then c else setTranslated c tr)
    (XlsxOut.rebuilt final, uniq)

/-- The translation written back for a collected distinct text: the result
of the single `translateChunk` call issued for it, at its index in the
deduplicated list. -/
def xlsxTranslationOf (remote : Nat → String → Option String)
    (cells : List CellValue) (t : String) : String :=
  translateChunk remote t (List.indexOf t (uniqueList (collectTexts cells)))

/-- Membership in the deduplicated list agrees with the source list. -/
theorem mem_uniqueList (l : List String) (a : String) :
    a ∈ uniqueList l ↔ a ∈ l := by
  induction l using uniqueList.induct with
  | case1 => simp [uniqueList]
  | case2 x xs ih =>
    rw [uniqueList]
    by_cases hax : a = x
    · subst hax; simp
    · simp only [List.mem_cons, ih, List.mem_filter, hax, false_or]
      constructor
      · exact fun h => h.1
      · exact fun h => ⟨h, by simpa using hax⟩

/-- The deduplicated list has no duplicates. -/
theorem nodup_uniqueList (l : List String) : (uniqueList l).Nodup := by
  induction l using uniqueList.induct with
  | case1 => simp [uniqueList]
  | case2 x xs ih =>
    rw [uniqueList]
    refine List.nodup_cons.2 ⟨fun hmem => ?_, ih⟩
    have := (mem_uniqueList _ _).1 hmem
    simp at this

/-- First-occurrence deduplication has the same length as Mathlib's
`List.dedup`: the number of distinct elements. -/
theorem length_uniqueList_eq_dedup (l : List String) :
    (uniqueList l).length = l.dedup.length := by
  refine List.Perm.length_eq ?_
  refine (List.perm_ext_iff_of_nodup (nodup_uniqueList l) l.nodup_dedup).2 ?_
  intro a
  rw [mem_uniqueList, List.mem_dedup]

/-- Looking a key up in the zip of a list with its indexed image yields the
image of its first index. -/
theorem lookup_zip_mapIdx (l : List String) (f : Nat → String → String)
    (t : String) (h : t ∈ l) :
    List.lookup t (l.zip (l.mapIdx f)) = some (f (List.indexOf t l) t) := by
  induction l generalizing f with
  | nil => cases h
  | cons x xs ih =>
    rw [List.mapIdx_cons, List.zip_cons_cons, List.lookup_cons]
    by_cases hx : t = x
    · subst hx
      simp [List.indexOf_cons_self]
    · have ht : t ∈ xs := by
        rcases List.mem_cons.1 h with h' | h'
        · exact absurd h' hx
        · exact h'
      have hbeq : (t == x) = false := beq_false_of_ne hx
      rw [hbeq]
      rw [ih (fun i => f (i + 1)) ht]
      rw [List.indexOf_cons_ne _ (fun he => hx he.symm)]

/-- The placeholder string is never empty (it starts with a bracket). -/
theorem placeholderFor_ne_empty (text : String) : placeholderFor text ≠ "" := by
  intro h
  have h1 : (placeholderFor text).data.head? = some '[' := rfl
  rw [h] at h1
  simp at h1

/-- `translateChunk` never returns the empty string: a successful call with
empty content throws (and is replaced by the placeholder), and the
placeholder itself is nonempty.  Hence the falsy-translation guard in the
XLSX write-back loop never skips a collected cell. -/
theorem translateChunk_ne_empty (remote : Nat → String → Option String)
    (text : String) (i : Nat) : translateChunk remote text i ≠ "" := by
  unfold translateChunk
  cases hr : remote i text with
  | none => exact placeholderFor_ne_empty text
  | some c =>
    by_cases hc : c = ""
    · simpa [hc] using placeholderFor_ne_empty text
    · simp [hc]

/-- C3: for a spreadsheet whose collected non-blank cell texts contain
exactly N distinct strings, the translation call is issued exactly once per
distinct text — the call list has length N and no duplicates, so at most N
calls and never one per duplicate occurrence — and (when any text was
collected) the rebuilt workbook overwrites every cell whose original text is
non-blank with the single translation obtained for that text, identical
across all cells sharing the text. -/
theorem xlsx_dedup_translation (remote : Nat → String → Option String)
    (cells : List CellValue) :
    ((processAndCreateXlsx remote cells).2).length = (collectTexts cells).dedup.length
    ∧ ((processAndCreateXlsx remote cells).2).Nodup
    ∧ (collectTexts cells ≠ [] →
        (processAndCreateXlsx remote cells).1 = XlsxOut.rebuilt
          (cells.map (fun c =>
            if jsTrim (cellText c) = "" then c
            else setTranslated c (xlsxTranslationOf remote cells (cellText c))))) := by
  by_cases hcol : collectTexts cells = []
  · refine ⟨?_, ?_, fun hne => absurd hcol hne⟩
    · simp [processAndCreateXlsx, hcol]
    · simp [processAndCreateXlsx, hcol]
  · have h2 : (processAndCreateXlsx remote cells).2 = uniqueList (collectTexts cells) := by
      simp [processAndCreateXlsx, hcol]
    refine ⟨?_, ?_, fun _ => ?_⟩
    · rw [h2]; exact length_uniqueList_eq_dedup _
    · rw [h2]; exact nodup_uniqueList _
    · have h1 : (processAndCreateXlsx remote cells).1 = XlsxOut.rebuilt
          (cells.map (fun c =>
            let t := cellText c
            if jsTrim t = "" then c
            else
              match List.lookup t ((uniqueList (collectTexts cells)).zip
                  ((uniqueList (collectTexts cells)).mapIdx
                    (fun i t2 => translateChunk remote t2 i))) with
              | none => c
              | some tr => if tr = "" then c else setTranslated c tr)) := by
        simp [processAndCreateXlsx, hcol]
      rw [h1]
      congr 1
      refine List.map_congr_left ?_
      intro c hc
      by_cases ht : jsTrim (cellText c) = ""
      · simp [ht]
      · have hmem : cellText c ∈ collectTexts cells := by
          refine List.mem_filter.2 ⟨List.mem_map_of_mem cellText hc, ?_⟩
          simpa using ht
        have hmu : cellText c ∈ uniqueList (collectTexts cells) :=
          (mem_uniqueList _ _).2 hmem
        have hlk := lookup_zip_mapIdx (uniqueList (collectTexts cells))
          (fun i t2 => translateChunk remote t2 i) (cellText c) hmu
        simp only [ht, if_false, hlk]
        rw [if_neg (translateChunk_ne_empty remote (cellText c) _)]
        rfl

/-- Sample cells for the XLSX witnesses: a duplicated text `a`, a second
text `b`, a blank cell and a whitespace-only cell. -/
def wcells : List CellValue :=
  [CellValue.str "a", CellValue.str "b", CellValue.str "a",
   CellValue.blank, CellValue.str " "]

/-- Witness for C3: on `wcells` with the suffixing oracle, exactly 2 calls
are made (for the 2 distinct texts) and both `a`-cells receive the same
translation `a!`. -/
theorem xlsx_dedup_translation_witness :
    ((processAndCreateXlsx (fun _ t => some (t ++ "!")) wcells).2).length = 2
    ∧ (processAndCreateXlsx (fun _ t => some (t ++ "!")) wcells).1 =
        XlsxOut.rebuilt
          [CellValue.str "a!", CellValue.str "b!", CellValue.str "a!",
           CellValue.blank, CellValue.str " "] := by
  have h := xlsx_dedup_translation (fun _ t => some (t ++ "!")) wcells
  constructor
  · rw [h.1]; decide
  · rw [h.2.2 (by decide)]; decide

/-- C7: when no cell yields a non-blank post-trim text, the original byte
buffer is returned unmodified and no translation call is made. -/
theorem xlsx_blank_passthrough (remote : Nat → String → Option String)
    (cells : List CellValue) (h : collectTexts cells = []) :
    processAndCreateXlsx remote cells = (XlsxOut.original, []) := by
  simp [processAndCreateXlsx, h]

/-- Witness for C7: a workbook of blank and whitespace-only cells passes
through untouched with zero calls. -/
theorem xlsx_blank_passthrough_witness :
    processAndCreateXlsx (fun _ t => some (t ++ "!"))
      [CellValue.blank, CellValue.str "  ", CellValue.rich []] =
      (XlsxOut.original, []) :=
  xlsx_blank_passthrough _ _ (by decide)

/-! ### `processPptx` / `createPptx` (the presentation pipeline) -/

/-- Match against `/^ppt\/slides\/slide[0-9]+\.xml$/`: the fixed prefix, at
least one digit, and the fixed suffix. -/
def isSlideName (s : String) : Bool :=
  let cs := s.data
  let n := cs.length
  decide (20 < n) && (cs.take 16 == "ppt/slides/slide".data)
    && (cs.drop (n - 4) == ".xml".data)
    && ((cs.drop 16).take (n - 20)).all (fun c => c.isDigit)

/-- Decimal value of a digit run. -/
def digitsVal (ds : List Char) : Nat :=
  ds.foldl (fun a c => a * 10 + (c.toNat - 48)) 0

/-- The numeric slide index `parseInt(name.match(/[0-9]+/)[0], 10)`: for a
name matching the slide pattern, the first digit run is exactly the run
between the fixed prefix and suffix. -/
def slideNum (s : String) : Nat :=
  digitsVal ((s.data.drop 16).take (s.data.length - 20))

/-- The comparator of the slide sort (`numA - numB` ascending). -/
def slideLe (a b : String) : Bool :=
  decide (slideNum a ≤ slideNum b)

/-- The slide part names of the archive, filtered by the slide pattern and
sorted by ascending numeric slide index (`.sort((a, b) => numA - numB)`). -/
def sortedSlideNames (files : List String) : List String :=
  (files.filter (fun f => isSlideName f)).mergeSort slideLe

/-- `processPptx`, over the archive's part names: each sorted slide part is
turned into `{ slideIndex: position, translatedText }`, where the per-slide
text extraction (`<a:t>` runs joined with spaces, trimmed) composed with the
chunk-translate call is the oracle `slideText` (returning `""` for a slide
with no extractable text); the result list is then re-sorted by
`slideIndex`, a no-op on the already-ascending enumeration. -/
def processPptx (slideText : String → String) (files : List String) :
    List (Nat × String) :=
  ((sortedSlideNames files).mapIdx (fun i name => (i, slideText name))).mergeSort
    (fun a b => decide (a.1 ≤ b.1))

/-- One slide of the generated output presentation: the translated body text
(or the `(Empty Slide)` filler) and the slide-number label. -/
structure Slide where
  body : String
  label : String
deriving DecidableEq

/-- `createPptx`: one slide per entry of the translated slide data, or a
single informational slide when there is none. -/
def createPptx (slideData : List (Nat × String)) : List Slide :=
  if slideData.length = 0 then
    [{ body := "No content translated.", label := "" }]
  else
    slideData.map (fun p =>
      { body := if p.2 = "" then "(Empty Slide)" else p.2
        label := "Slide " ++ toString (p.1 + 1) })

/-- C4: with K slide XML parts matching `ppt/slides/slide<number>.xml`, the
reconstructed presentation has exactly K slides when K > 0 and exactly one
informational slide when K = 0, and the reconstruction order is the
ascending numeric slide index parsed from the part filename — the processed
slide list enumerates a sorted permutation of the matching part names,
regardless of their enumeration order in the archive. -/
theorem pptx_slide_count_and_order (slideText : String → String)
    (files : List String) :
    (createPptx (processPptx slideText files)).length =
      (if (files.filter (fun f => isSlideName f)).length = 0 then 1
       else (files.filter (fun f => isSlideName f)).length)
    ∧ (sortedSlideNames files).Perm (files.filter (fun f => isSlideName f))
    ∧ (sortedSlideNames files).Pairwise (fun a b => slideNum a ≤ slideNum b) := by
  have hlen : (processPptx slideText files).length =
      (files.filter (fun f => isSlideName f)).length := by
    simp [processPptx, sortedSlideNames]
  refine ⟨?_, ?_, ?_⟩
  · by_cases h0 : (files.filter (fun f => isSlideName f)).length = 0
    · simp [createPptx, hlen, h0]
    · simp [createPptx, hlen, h0]
  · exact List.mergeSort_perm _ _
  · have htrans : ∀ (a b c : String),
        slideLe a b = true → slideLe b c = true → slideLe a c = true := by
      intro a b c hab hbc
      simp only [slideLe, decide_eq_true_eq] at hab hbc ⊢
      exact Nat.le_trans hab hbc
    have htotal : ∀ (a b : String), (slideLe a b || slideLe b a) = true := by
      intro a b
      simp only [slideLe]
      rcases Nat.le_total (slideNum a) (slideNum b) with h | h <;> simp [h]
    have hp := @List.sorted_mergeSort String slideLe htrans htotal
      (files.filter (fun f => isSlideName f))
    refine hp.imp ?_
    intro a b h
    simpa [slideLe, decide_eq_true_eq] using h

unseal List.merge List.mergeSort in
/-- Concrete illustration of the reorder in C4's sources: parts enumerated
as slide3, slide1, slide2 sort into slide1, slide2, slide3. -/
theorem sortedSlideNames_reorders :
    sortedSlideNames
      ["ppt/slides/slide3.xml", "ppt/slides/slide1.xml", "ppt/slides/slide2.xml",
       "ppt/slides/_rels/slide1.xml.rels", "docProps/app.xml"] =
      ["ppt/slides/slide1.xml", "ppt/slides/slide2.xml", "ppt/slides/slide3.xml"] := by
  rfl

/-! ### `translateImageDirect` (the OCR image path) -/

/-- One OCR word: its symbols' texts and its bounding-box vertices
(missing coordinates already defaulted to 0 as by `v.x || 0`). -/
structure OcrWord where
  symbols : List String
  vertices : List (Int × Int)
deriving DecidableEq

/-- One OCR paragraph. -/
structure OcrPara where
  words : List OcrWord
deriving DecidableEq

/-- One OCR block. -/
structure OcrBlock where
  paragraphs : List OcrPara
deriving DecidableEq

/-- One OCR page with its detected pixel dimensions. -/
structure OcrPage where
  pageWidth : Option Int
  pageHeight : Option Int
  blocks : List OcrBlock
deriving DecidableEq

/-- The structured full-text annotation of the OCR response. -/
structure FullTextAnnotation where
  pages : List OcrPage
deriving DecidableEq

/-- The OCR response: the flat detection list (only its emptiness is
consumed) and the structured annotation. -/
structure OcrResult where
  textAnnotations : Option (List String)
  fullTextAnnotation : Option FullTextAnnotation
deriving DecidableEq

/-- The raw bounding-box extremes of a paragraph; `none` in the minima
models the untouched `Infinity` initial accumulator (the percentage
conversion `(v / imageDim) * 100` is floating-point presentation left
outside the model). -/
structure SegPos where
  minX : Option Int
  minY : Option Int
  maxX : Int
  maxY : Int
deriving DecidableEq

/-- One position-tagged text segment of the image translation result. -/
structure Segment where
  pos : SegPos
  original : String
  translated : String
deriving DecidableEq

/-- `Math.min` folding against an `Infinity` start. -/
def minFold (o : Option Int) (x : Int) : Option Int :=
  some (match o with | none => x | some m => min m x)

/-- The bounding box of a paragraph: min/max over all its words' vertices. -/
def paraPos (para : OcrPara) : SegPos :=
  para.words.foldl (fun acc w =>
    w.vertices.foldl (fun a v =>
      { minX := minFold a.minX v.1, minY := minFold a.minY v.2,
        maxX := max a.maxX v.1, maxY := max a.maxY v.2 }) acc)
    { minX := none, minY := none, maxX := 0, maxY := 0 }

/-- The segment list built from the structured annotation: per paragraph,
words joined with spaces (each word its symbols concatenated), paragraphs
whose joined text trims to blank discarded, translations left empty. -/
def buildSegments (fta : Option FullTextAnnotation) : List Segment :=
  match fta with
  | none => []
  | some f =>
    (f.pages.map (fun page =>
      (page.blocks.map (fun b =>
        b.paragraphs.filterMap (fun para =>
          let text := jsJoin " " (para.words.map (fun w => jsJoin "" w.symbols))
          if jsTrim text = "" then none
          else some { pos := paraPos para, original := text, translated := "" }))).flatten)).flatten

/-- The observable result of one image translation: the segments, how many
remote translation-model calls were made, and whether the vision fallback
path was taken. -/
structure ImageResult where
  segments : List Segment
  translationCalls : Nat
  usedVisionFallback : Bool
deriving DecidableEq

/-- The catch-block fallback `translateImageWithVision`: one vision-model
call whose parsed `segments` array (an oracle, since the response is
external) is returned verbatim, and whose parse failures are fatal. -/
def runFallback (fallback : Except String (List Segment)) :
    Except String ImageResult :=
  match fallback with
  | .error e => .error e
  | .ok segs =>
    .ok { segments := segs, translationCalls := 1, usedVisionFallback := true }

/-- Positional assignment of translated lines back onto segments, up to the
shorter length; unmatched segments keep their empty translation. -/
def assignTranslations (segs : List Segment) (lines : List String) :
    List Segment :=
  segs.mapIdx (fun i s =>
    match lines.get? i with
    | some l => { s with translated := jsTrim l }
    | none => s)

/-- `translateImageDirect`: on OCR failure fall back to the vision model; on
zero detections return `{segments: []}` immediately with no translation
call; otherwise build segments, and if any exist issue exactly one batch
translation call, falling back when it throws (`none`) or returns
blank-trimming content. -/
def translateImageDirect (ocr : Except String OcrResult)
    (batch : String → Option String)
    (fallback : Except String (List Segment)) : Except String ImageResult :=
  match ocr with
  | .error _ => runFallback fallback
  | .ok r =>
    match r.textAnnotations with
    | none => .ok { segments := [], translationCalls := 0, usedVisionFallback := false }
    | some [] => .ok { segments := [], translationCalls := 0, usedVisionFallback := false }
    | some (_ :: _) =>
      let segs := buildSegments r.fullTextAnnotation
      if segs.length > 0 then
        match batch (jsJoin "\n" (segs.map Segment.original)) with
        | none => runFallback fallback
        | some content =>
          let translatedText := jsTrim content
          if translatedText = "" then runFallback fallback
          else
            .ok { segments := assignTranslations segs (jsSplit "\n" translatedText)
                  translationCalls := 1
                  usedVisionFallback := false }
      else .ok { segments := segs, translationCalls := 0, usedVisionFallback := false }

/-- C5: when the OCR service returns zero text detections (a missing or
empty `textAnnotations`), the image translation returns `{segments: []}`
having made no translation call and no vision fallback. -/
theorem image_no_detection_no_call (r : OcrResult)
    (batch : String → Option String) (fallback : Except String (List Segment))
    (h : r.textAnnotations = none ∨ r.textAnnotations = some []) :
    translateImageDirect (.ok r) batch fallback =
      .ok { segments := [], translationCalls := 0, usedVisionFallback := false } := by
  rcases h with h | h <;> simp [translateImageDirect, h]

/-- Witness for C5 at a concrete empty OCR response. -/
theorem image_no_detection_no_call_witness :
    translateImageDirect
      (.ok { textAnnotations := none, fullTextAnnotation := none })
      (fun _ => some "ignored") (.error "no fallback") =
      .ok { segments := [], translationCalls := 0, usedVisionFallback := false } :=
  image_no_detection_no_call _ _ _ (Or.inl rfl)

/-! ### `translateAudioDirect` (the audio path) -/

/-- The two result shapes of `translateAudioDirect`: the non-fatal
no-speech report and the successful transcription-plus-translation (audio
metadata such as duration and detected language is carried alongside in the
source and does not affect these claims). -/
inductive AudioResult
  | noSpeech (success : Bool) (message : String)
      (originalText : String) (translatedText : String)
  | translatedRes (success : Bool) (originalText : String)
      (translatedText : String)
deriving DecidableEq

/-- The joined transcription
`response.results.map(r => r.alternatives?.[0]?.transcript).filter(Boolean).join('\n') || ''`:
missing transcripts (`none`) and empty ones are dropped, the rest joined
with newlines. -/
def joinTranscription (results : List (Option String)) : String :=
  jsJoin "\n" ((results.filterMap id).filter (fun t => t ≠ ""))

/-- `translateAudioDirect`, over the transcription response's per-result
transcripts and the single-call text translation (`translateTextDirect`) as
an oracle; the second component counts translation calls. A falsy (empty)
joined transcription short-circuits into the non-error no-speech result;
any later failure is wrapped fatally by the catch block. -/
def translateAudioDirect (results : List (Option String))
    (translate : String → Except String String) :
    (Except String AudioResult) × Nat :=
  let transcription := joinTranscription results
  if transcription = "" then
    (.ok (AudioResult.noSpeech false "No speech detected in the audio file" "" ""), 0)
  else
    match translate transcription with
    | .error e => (.error ("Audio translation failed: " ++ e), 1)
    | .ok tr => (.ok (AudioResult.translatedRes true transcription tr), 1)

/-- C8: when the transcription service returns no usable transcript segment
(so the joined transcription is empty), the audio translation returns a
non-error result with `success: false`, the no-speech message and empty
text fields, making no translation call and throwing nothing. -/
theorem audio_no_speech_non_fatal (results : List (Option String))
    (translate : String → Except String String)
    (h : (results.filterMap id).filter (fun t => t ≠ "") = []) :
    translateAudioDirect results translate =
      (.ok (AudioResult.noSpeech false "No speech detected in the audio file" "" ""), 0) := by
  have hj : joinTranscription results = "" := by
    rw [joinTranscription, h]; rfl
  simp [translateAudioDirect, hj]

/-- Witness for C8: a response with one missing and one empty transcript. -/
theorem audio_no_speech_non_fatal_witness :
    translateAudioDirect [none, some ""] (fun t => .ok t) =
      (.ok (AudioResult.noSpeech false "No speech detected in the audio file" "" ""), 0) :=
  audio_no_speech_non_fatal _ _ (by decide)

/-- C9: a CSV input whose parse yields zero data records (a header-only
file, an empty file) makes `processCsv` throw — it unconditionally takes
`Object.keys(records[0])` — so the CSV job fails instead of completing with
an output file: `handleTranslation` on such a `.csv` job returns the error. -/
theorem csv_empty_parse_throws (split : String → List String)
    (remote : Nat → String → Option String) (input : String)
    (h : parseCsv input = []) :
    processCsv split remote input =
      .error "Cannot convert undefined or null to object"
    ∧ (∀ (d : JobDeps) (name : String),
        extnameLower name = ".csv" → d.textContent = input →
        (handleTranslation d name).outcome =
          .error "Cannot convert undefined or null to object") := by
  constructor
  · simp [processCsv, h, csvBlob, Except.map]
  · intro d name hname hcontent
    simp +decide [handleTranslation, hname, hcontent, h, csvBlob, failedRun]

/-- Witness for C9: the header-only file `name,age` parses to zero records
and fails the job. -/
theorem csv_empty_parse_throws_witness :
    processCsv (fun t => [t]) (fun _ t => some t) "name,age" =
      .error "Cannot convert undefined or null to object"
    ∧ (handleTranslation { demoDeps with textContent := "name,age" }
        "data.csv").outcome =
        .error "Cannot convert undefined or null to object" := by
  have h := csv_empty_parse_throws (fun t => [t]) (fun _ t => some t)
    "name,age" (by decide)
  exact ⟨h.1, h.2 { demoDeps with textContent := "name,age" } "data.csv"
    (by decide) rfl⟩

/-- C6: round-trip on the concrete CSV `name,age` / `Alice,30` / `Bob,25`:
the serialized delimiter-joined blob survives an identity translation
unchanged, and `createCsv` rebuilds exactly 2 data records each carrying
exactly the 2 column keys `name` and `age`. -/
theorem csv_roundtrip_concrete :
    csvBlob (parseCsv "name,age\nAlice,30\nBob,25") =
      .ok "name|||age\n\nAlice|||30\n\nBob|||25"
    ∧ chunkAndTranslateText (fun t => [t]) (fun _ t => some t)
        "name|||age\n\nAlice|||30\n\nBob|||25" =
        "name|||age\n\nAlice|||30\n\nBob|||25"
    ∧ createCsv "name|||age\n\nAlice|||30\n\nBob|||25" =
        OutFile.csvFile ["name", "age"]
          [[("name", "Alice"), ("age", "30")], [("name", "Bob"), ("age", "25")]]
    ∧ ([[("name", "Alice"), ("age", "30")], [("name", "Bob"), ("age", "25")]] :
        List (List (String × String))).length = 2
    ∧ ([[("name", "Alice"), ("age", "30")], [("name", "Bob"), ("age", "25")]] :
        List (List (String × String))).all
        (fun r => r.map Prod.fst = ["name", "age"]) := by
  refine ⟨?_, ?_, ?_, ?_, ?_⟩ <;> rfl

/-! ### Word preservation of `wrapText` (C10) -/

/-- The words of a character sequence: the nonempty maximal runs between
spaces and newlines. -/
def wordsOf (cs : List Char) : List (List Char) :=
  (splitW isSep cs).filter (fun t => !(t == []))

/-- The words of the produced lines, in line order. -/
def outWords (ls : List (List Char)) : List (List Char) :=
  (ls.map wordsOf).flatten

/-- Keep a token of the word loop: drop the empty tokens produced by
adjacent separators and the synthetic newline tokens. -/
def keepTok (t : List Char) : Bool :=
  !(t == []) && !(t == ['\n'])

/-- The word tokens of the loop that are genuine words. -/
def normTokens (ts : List (List Char)) : List (List Char) :=
  ts.filter keepTok

/-- `splitW` always yields at least one (possibly empty) piece. -/
theorem splitW_ne_nil (p : Char → Bool) (cs : List Char) : splitW p cs ≠ [] := by
  induction cs with
  | nil => simp [splitW]
  | cons c cs ih =>
    cases hc : p c with
    | true => simp [splitW, hc]
    | false =>
      cases hs : splitW p cs with
      | nil => exact absurd hs ih
      | cons t ts => simp [splitW, hc, hs]

/-- `splitW` shape on a leading separator. -/
theorem splitW_cons_sep (p : Char → Bool) (c : Char) (cs : List Char)
    (h : p c = true) : splitW p (c :: cs) = [] :: splitW p cs := by
  simp [splitW, h]

/-- `splitW` shape on a leading non-separator. -/
theorem splitW_cons_nosep (p : Char → Bool) (c : Char) (cs : List Char)
    (t : List Char) (ts : List (List Char)) (h : p c = false)
    (hs : splitW p cs = t :: ts) : splitW p (c :: cs) = (c :: t) :: ts := by
  simp [splitW, h, hs]

/-- The split list is never empty, in existential form. -/
theorem splitW_exists_cons (p : Char → Bool) (cs : List Char) :
    ∃ t ts, splitW p cs = t :: ts := by
  cases h : splitW p cs with
  | nil => exact absurd h (splitW_ne_nil p cs)
  | cons t ts => exact ⟨t, ts, rfl⟩

/-- Splitting distributes over appending across a separator character. -/
theorem splitW_append_sep (p : Char → Bool) (c : Char) (hc : p c = true)
    (a b : List Char) : splitW p (a ++ c :: b) = splitW p a ++ splitW p b := by
  induction a with
  | nil =>
    rw [List.nil_append, splitW_cons_sep p c b hc]
    rfl
  | cons x a ih =>
    cases hx : p x with
    | true =>
      rw [List.cons_append, splitW_cons_sep p x _ hx, splitW_cons_sep p x a hx,
        ih, List.cons_append]
    | false =>
      obtain ⟨t, ts, hs⟩ := splitW_exists_cons p (a ++ c :: b)
      obtain ⟨t2, ts2, hs2⟩ := splitW_exists_cons p a
      have hkey : t :: ts = t2 :: (ts2 ++ splitW p b) := by
        rw [← hs, ih, hs2, List.cons_append]
      injection hkey with h1 h2
      rw [List.cons_append, splitW_cons_nosep p x _ t ts hx hs,
        splitW_cons_nosep p x a t2 ts2 hx hs2, List.cons_append, h1, h2]

/-- The first piece of the split is the longest non-separator run. -/
theorem splitW_headI (p : Char → Bool) (cs : List Char) :
    (splitW p cs).headI = cs.takeWhile (fun c => !(p c)) := by
  induction cs with
  | nil => simp [splitW]
  | cons c cs ih =>
    cases hc : p c with
    | true => simp [splitW_cons_sep p c cs hc, List.takeWhile_cons, hc]
    | false =>
      obtain ⟨t, ts, hs⟩ := splitW_exists_cons p cs
      rw [splitW_cons_nosep p c cs t ts hc hs]
      rw [hs] at ih
      simp [List.takeWhile_cons, hc, ← ih]

/-- No piece of the split contains a separator character. -/
theorem splitW_tokens_nosep (p : Char → Bool) (cs : List Char) :
    ∀ t ∈ splitW p cs, ∀ c ∈ t, p c = false := by
  induction cs with
  | nil =>
    intro t ht c hc
    simp [splitW] at ht
    subst ht
    simp at hc
  | cons x cs ih =>
    cases hx : p x with
    | true =>
      rw [splitW_cons_sep p x cs hx]
      intro t ht c hc
      rcases List.mem_cons.1 ht with rfl | ht2
      · simp at hc
      · exact ih t ht2 c hc
    | false =>
      obtain ⟨t0, ts0, hs⟩ := splitW_exists_cons p cs
      rw [splitW_cons_nosep p x cs t0 ts0 hx hs]
      intro t ht c hc
      rcases List.mem_cons.1 ht with rfl | ht2
      · rcases List.mem_cons.1 hc with rfl | hc2
        · exact hx
        · exact ih t0 (by rw [hs]; exact List.mem_cons_self t0 ts0) c hc2
      · exact ih t (by rw [hs]; exact List.mem_cons_of_mem t0 ht2) c hc

/-- A separator-free sequence splits into exactly itself. -/
theorem splitW_eq_single (p : Char → Bool) (t : List Char)
    (h : ∀ c ∈ t, p c = false) : splitW p t = [t] := by
  induction t with
  | nil => rfl
  | cons c t ih =>
    have hc : p c = false := h c (List.mem_cons_self c t)
    have ht : splitW p t = [t] := ih (fun x hx => h x (List.mem_cons_of_mem c hx))
    rw [splitW_cons_nosep p c t t [] hc ht]

/-- The newline padding of `replace(/\n/g, ' \n ')` does not change the
leading non-separator run. -/
theorem takeWhile_replNL (cs : List Char) :
    (replNL cs).takeWhile (fun c => !(isSp c)) =
      cs.takeWhile (fun c => !(isSep c)) := by
  induction cs with
  | nil => rfl
  | cons c cs ih =>
    by_cases hnl : c = '\n'
    · subst hnl
      simp [replNL, List.takeWhile_cons, isSp, isSep]
    · by_cases hsp : c = ' '
      · subst hsp
        simp [replNL, List.takeWhile_cons, isSp, isSep]
      · have hr : replNL (c :: cs) = c :: replNL cs := by
          simp [replNL, hnl]
        rw [hr,
          @List.takeWhile_cons_of_pos Char (fun x => !(isSp x)) c (replNL cs)
            (by simp [isSp, hsp]),
          @List.takeWhile_cons_of_pos Char (fun x => !(isSep x)) c cs
            (by simp [isSep, hsp, hnl]),
          ih]

/-- Split shape on a padded newline. -/
theorem splitW_replNL_newline (cs : List Char) :
    splitW isSp (replNL ('\n' :: cs)) =
      [] :: ['\n'] :: splitW isSp (replNL cs) := by
  have h1 : splitW isSp (' ' :: replNL cs) = [] :: splitW isSp (replNL cs) :=
    splitW_cons_sep isSp ' ' _ rfl
  have h2 : splitW isSp ('\n' :: ' ' :: replNL cs) =
      ['\n'] :: splitW isSp (replNL cs) :=
    splitW_cons_nosep isSp '\n' _ [] (splitW isSp (replNL cs)) rfl h1
  have hr : replNL ('\n' :: cs) = ' ' :: '\n' :: ' ' :: replNL cs := by
    simp [replNL]
  rw [hr, splitW_cons_sep isSp ' ' _ rfl, h2]

/-- Split shape on a leading space. -/
theorem splitW_replNL_space (cs : List Char) :
    splitW isSp (replNL (' ' :: cs)) = [] :: splitW isSp (replNL cs) := by
  have hr : replNL (' ' :: cs) = ' ' :: replNL cs := by simp [replNL]
  rw [hr]
  exact splitW_cons_sep isSp ' ' _ rfl

/-- The head token of the padded split never is the newline token. -/
theorem splitW_replNL_headI_nonl (cs : List Char) :
    '\n' ∉ (splitW isSp (replNL cs)).headI := by
  rw [splitW_headI, takeWhile_replNL]
  intro hmem
  have := List.mem_takeWhile_imp hmem
  simp [isSep] at this

/-- Every token of the word loop is the newline token or newline-free. -/
theorem replNL_tokens_nl (cs : List Char) :
    ∀ t ∈ splitW isSp (replNL cs), t = ['\n'] ∨ '\n' ∉ t := by
  induction cs with
  | nil =>
    intro t ht
    simp [replNL, splitW] at ht
    subst ht
    right; simp
  | cons c cs ih =>
    by_cases hnl : c = '\n'
    · subst hnl
      rw [splitW_replNL_newline]
      intro t ht
      rcases List.mem_cons.1 ht with rfl | ht2
      · right; simp
      · rcases List.mem_cons.1 ht2 with rfl | ht3
        · left; rfl
        · exact ih t ht3
    · by_cases hsp : c = ' '
      · subst hsp
        rw [splitW_replNL_space]
        intro t ht
        rcases List.mem_cons.1 ht with rfl | ht2
        · right; simp
        · exact ih t ht2
      · obtain ⟨t0, ts0, hs⟩ := splitW_exists_cons isSp (replNL cs)
        have hr : replNL (c :: cs) = c :: replNL cs := by simp [replNL, hnl]
        have h3 : splitW isSp (replNL (c :: cs)) = (c :: t0) :: ts0 := by
          rw [hr]
          exact splitW_cons_nosep isSp c _ t0 ts0 (by simp [isSp, hsp]) hs
        have ht0nl : '\n' ∉ t0 := by
          have hh := splitW_replNL_headI_nonl cs
          rw [hs] at hh
          simpa using hh
        rw [h3]
        intro t ht
        rcases List.mem_cons.1 ht with rfl | ht2
        · right
          intro hmem
          rcases List.mem_cons.1 hmem with h4 | h4
          · exact hnl h4.symm
          · exact ht0nl h4
        · exact ih t (by rw [hs]; exact List.mem_cons_of_mem t0 ht2)

/-- The empty token is dropped. -/
theorem normTokens_nil_cons (ts : List (List Char)) :
    normTokens ([] :: ts) = normTokens ts := by
  simp [normTokens, keepTok]

/-- The newline token is dropped. -/
theorem normTokens_nl_cons (ts : List (List Char)) :
    normTokens (['\n'] :: ts) = normTokens ts := by
  simp [normTokens, keepTok]

/-- A genuine word token is kept. -/
theorem normTokens_cons (t : List Char) (ts : List (List Char))
    (hne : t ≠ []) (hnl : t ≠ ['\n']) :
    normTokens (t :: ts) = t :: normTokens ts := by
  simp [normTokens, keepTok, List.filter_cons, hne, hnl]

/-- The newline padding before splitting preserves the genuine word
tokens: the padded space-split and the direct separator-split agree after
dropping empty and newline tokens. -/
theorem normTokens_splitW_replNL (cs : List Char) :
    normTokens (splitW isSp (replNL cs)) = normTokens (splitW isSep cs) := by
  induction cs with
  | nil => rfl
  | cons c cs ih =>
    by_cases hnl : c = '\n'
    · subst hnl
      rw [splitW_replNL_newline, normTokens_nil_cons, normTokens_nl_cons, ih,
        splitW_cons_sep isSep '\n' cs rfl, normTokens_nil_cons]
    · by_cases hsp : c = ' '
      · subst hsp
        rw [splitW_replNL_space, normTokens_nil_cons, ih,
          splitW_cons_sep isSep ' ' cs rfl, normTokens_nil_cons]
      · obtain ⟨t1, ts1, hs1⟩ := splitW_exists_cons isSp (replNL cs)
        obtain ⟨t2, ts2, hs2⟩ := splitW_exists_cons isSep cs
        have hr : replNL (c :: cs) = c :: replNL cs := by simp [replNL, hnl]
        have hL : splitW isSp (replNL (c :: cs)) = (c :: t1) :: ts1 := by
          rw [hr]
          exact splitW_cons_nosep isSp c _ t1 ts1 (by simp [isSp, hsp]) hs1
        have hR : splitW isSep (c :: cs) = (c :: t2) :: ts2 :=
          splitW_cons_nosep isSep c _ t2 ts2 (by simp [isSep, hsp, hnl]) hs2
        have ht12 : t1 = t2 := by
          have e1 := splitW_headI isSp (replNL cs)
          have e2 := splitW_headI isSep cs
          rw [hs1] at e1
          rw [hs2] at e2
          simp only [List.headI] at e1 e2
          rw [e1, e2, takeWhile_replNL]
        have ihh := ih
        rw [hs1, hs2] at ihh
        have hnorm : normTokens ts1 = normTokens ts2 := by
          by_cases hk : keepTok t1 = true
          · have l1 : normTokens (t1 :: ts1) = t1 :: normTokens ts1 := by
              simp [normTokens, List.filter_cons, hk]
            have l2 : normTokens (t2 :: ts2) = t2 :: normTokens ts2 := by
              simp [normTokens, List.filter_cons, ht12 ▸ hk]
            rw [l1, l2] at ihh
            injection ihh
          · have hk' : keepTok t1 = false := by simpa using hk
            have l1 : normTokens (t1 :: ts1) = normTokens ts1 := by
              simp [normTokens, List.filter_cons, hk']
            have l2 : normTokens (t2 :: ts2) = normTokens ts2 := by
              simp [normTokens, List.filter_cons, ht12 ▸ hk']
            rw [l1, l2] at ihh
            exact ihh
        have k1 : normTokens ((c :: t1) :: ts1) = (c :: t1) :: normTokens ts1 :=
          normTokens_cons _ _ (by simp)
            (by intro he; injection he with hc _; exact hnl hc)
        have k2 : normTokens ((c :: t2) :: ts2) = (c :: t2) :: normTokens ts2 :=
          normTokens_cons _ _ (by simp)
            (by intro he; injection he with hc _; exact hnl hc)
        rw [hL, hR, k1, k2, ht12, hnorm]

/-- Dropping empty and newline tokens from the direct separator-split
yields exactly the words of the input. -/
theorem normTokens_eq_wordsOf (cs : List Char) :
    normTokens (splitW isSep cs) = wordsOf cs := by
  unfold normTokens wordsOf
  apply List.filter_congr
  intro t ht
  cases t with
  | nil => rfl
  | cons c t2 =>
    have hfree := splitW_tokens_nosep isSep cs _ ht
    have hcnl : ¬((c :: t2) = ['\n']) := by
      intro he
      injection he with h1 h2
      have := hfree c (List.mem_cons_self c t2)
      rw [h1] at this
      simp [isSep] at this
    simp [keepTok, hcnl]
    by_cases h1 : c = '\n'
    · right
      intro h2
      exact hcnl (by rw [h1, h2])
    · left
      exact h1

/-- The empty sequence has no words. -/
theorem wordsOf_nil : wordsOf [] = [] := rfl

/-- Words split cleanly across an inserted space. -/
theorem wordsOf_append_space (a b : List Char) :
    wordsOf (a ++ ' ' :: b) = wordsOf a ++ wordsOf b := by
  unfold wordsOf
  rw [splitW_append_sep isSep ' ' rfl a b, List.filter_append]

/-- A separator-free sequence is its own single word (or no word at all
when empty). -/
theorem wordsOf_token (u : List Char) (hfree : ∀ c ∈ u, isSep c = false) :
    wordsOf u = if u = [] then [] else [u] := by
  unfold wordsOf
  rw [splitW_eq_single isSep u hfree]
  by_cases hu : u = []
  · subst hu; simp
  · simp [List.filter_cons, hu]

/-- Output words accumulate line by line. -/
theorem outWords_cons (l : List Char) (ls : List (List Char)) :
    outWords (l :: ls) = wordsOf l ++ outWords ls := by
  simp [outWords]

/-- The word loop preserves words: the words of the emitted lines are the
words already in the current line followed by the genuine word tokens
still to process. -/
theorem outWords_wrapGo (w : List Char → Int) (maxW : Int) :
    ∀ (ts : List (List Char)) (cur : List Char),
      (∀ t ∈ ts, t = ['\n'] ∨ (∀ c ∈ t, isSep c = false)) →
      outWords (wrapGo w maxW ts cur) = wordsOf cur ++ normTokens ts := by
  intro ts
  induction ts with
  | nil =>
    intro cur _
    simp [wrapGo, outWords, normTokens]
  | cons u ts ih =>
    intro cur h
    have hu := h u (List.mem_cons_self u ts)
    have hts : ∀ t ∈ ts, t = ['\n'] ∨ (∀ c ∈ t, isSep c = false) :=
      fun t ht => h t (List.mem_cons_of_mem u ht)
    by_cases hnl : u = ['\n']
    · subst hnl
      have e : wrapGo w maxW (['\n'] :: ts) cur = cur :: wrapGo w maxW ts [] := by
        simp [wrapGo]
      rw [e, outWords_cons, ih [] hts, normTokens_nl_cons, wordsOf_nil,
        List.nil_append]
    · have hfree : ∀ c ∈ u, isSep c = false := hu.resolve_left hnl
      have hwu : wordsOf u = if u = [] then [] else [u] := wordsOf_token u hfree
      by_cases hw : w (if cur = [] then u else cur ++ ' ' :: u) < maxW
      · have e : wrapGo w maxW (u :: ts) cur =
            wrapGo w maxW ts (if cur = [] then u else cur ++ ' ' :: u) := by
          simp [wrapGo, hnl, hw]
        rw [e, ih _ hts]
        by_cases hcur : cur = []
        · subst hcur
          rw [if_pos rfl, wordsOf_nil, List.nil_append]
          by_cases hune : u = []
          · subst hune
            rw [wordsOf_nil, normTokens_nil_cons, List.nil_append]
          · rw [hwu, if_neg hune, normTokens_cons u ts hune hnl]
            rfl
        · rw [if_neg hcur, wordsOf_append_space]
          by_cases hune : u = []
          · subst hune
            rw [wordsOf_nil, normTokens_nil_cons, List.append_nil]
          · rw [hwu, if_neg hune, normTokens_cons u ts hune hnl,
              List.append_assoc]
            rfl
      · have e : wrapGo w maxW (u :: ts) cur = cur :: wrapGo w maxW ts u := by
          simp [wrapGo, hnl, hw]
        rw [e, outWords_cons, ih u hts]
        by_cases hune : u = []
        · subst hune
          rw [wordsOf_nil, normTokens_nil_cons, List.nil_append]
        · rw [hwu, if_neg hune, normTokens_cons u ts hune hnl]
          rfl

/-- Every token fed to the word loop is the newline token or free of both
separators. -/
theorem wrap_tokens_shape (text : List Char) :
    ∀ t ∈ splitW isSp (replNL text),
      t = ['\n'] ∨ (∀ c ∈ t, isSep c = false) := by
  intro t ht
  rcases replNL_tokens_nl text t ht with h | h
  · exact Or.inl h
  · right
    intro c hc
    have hsp := splitW_tokens_nosep isSp (replNL text) t ht c hc
    have hcnl : c ≠ '\n' := fun he => h (he ▸ hc)
    simp [isSp] at hsp
    simp [isSep, hsp, hcnl]

/-- When the current line is a single word already at least as wide as the
page, that word is emitted as a line of its own whatever comes next. -/
theorem mem_wrapGo_self (w : List Char → Int) (maxW : Int) (t : List Char)
    (htne : t ≠ []) (hbig : maxW ≤ w t)
    (hL : ∀ a b : List Char, w a ≤ w (a ++ ' ' :: b)) :
    ∀ ts : List (List Char), t ∈ wrapGo w maxW ts t := by
  intro ts
  cases ts with
  | nil => simp [wrapGo]
  | cons v ts =>
    by_cases hv : v = ['\n']
    · simp [wrapGo, hv]
    · have hlw : ¬ (w (if t = [] then v else t ++ ' ' :: v) < maxW) := by
        rw [if_neg htne]
        exact not_lt.2 (le_trans hbig (hL t v))
      have e : wrapGo w maxW (v :: ts) t = t :: wrapGo w maxW ts v := by
        simp [wrapGo, hv, hlw]
      rw [e]
      exact List.mem_cons_self t _

/-- An oversized word among the remaining tokens is emitted as a line of
its own. -/
theorem mem_wrapGo_oversized (w : List Char → Int) (maxW : Int) (t : List Char)
    (htne : t ≠ []) (htnl : t ≠ ['\n']) (hbig : maxW ≤ w t)
    (hR : ∀ a b : List Char, w b ≤ w (a ++ ' ' :: b))
    (hL : ∀ a b : List Char, w a ≤ w (a ++ ' ' :: b)) :
    ∀ (ts : List (List Char)) (cur : List Char),
      t ∈ ts → t ∈ wrapGo w maxW ts cur := by
  intro ts
  induction ts with
  | nil =>
    intro cur h
    cases h
  | cons u ts ih =>
    intro cur hmem
    rcases List.mem_cons.1 hmem with rfl | hmem2
    · have hlw : ¬ (w (if cur = [] then t else cur ++ ' ' :: t) < maxW) := by
        by_cases hcur : cur = []
        · rw [if_pos hcur]
          exact not_lt.2 hbig
        · rw [if_neg hcur]
          exact not_lt.2 (le_trans hbig (hR cur t))
      have e : wrapGo w maxW (t :: ts) cur = cur :: wrapGo w maxW ts t := by
        simp [wrapGo, htnl, hlw]
      rw [e]
      exact List.mem_cons_of_mem cur (mem_wrapGo_self w maxW t htne hbig hL ts)
    · by_cases hum : u = ['\n']
      · have e : wrapGo w maxW (u :: ts) cur = cur :: wrapGo w maxW ts [] := by
          simp [wrapGo, hum]
        rw [e]
        exact List.mem_cons_of_mem cur (ih [] hmem2)
      · by_cases hw2 : w (if cur = [] then u else cur ++ ' ' :: u) < maxW
        · have e : wrapGo w maxW (u :: ts) cur =
              wrapGo w maxW ts (if cur = [] then u else cur ++ ' ' :: u) := by
            simp [wrapGo, hum, hw2]
          rw [e]
          exact ih _ hmem2
        · have e : wrapGo w maxW (u :: ts) cur = cur :: wrapGo w maxW ts u := by
            simp [wrapGo, hum, hw2]
          rw [e]
          exact List.mem_cons_of_mem cur (ih u hmem2)

/-- C10: `wrapText` preserves every whitespace-separated word of the input,
in order, across the concatenated output lines — the words of the emitted
lines are exactly the words of the input, so no word is dropped, truncated
or split. Moreover, under a font metric that never shrinks when a line is
extended on either side of a space, a word whose rendered width is at least
`maxWidth` still appears as a line of its own; and an explicit newline token
terminates the current line exactly where it occurs. -/
theorem wrapText_preserves_words :
    (∀ (w : List Char → Int) (maxW : Int) (text : List Char),
        outWords (wrapText w maxW text) = wordsOf text)
    ∧ (∀ (w : List Char → Int) (maxW : Int) (text : List Char) (t : List Char),
        (∀ a b : List Char, w b ≤ w (a ++ ' ' :: b)) →
        (∀ a b : List Char, w a ≤ w (a ++ ' ' :: b)) →
        t ∈ wordsOf text → maxW ≤ w t → t ∈ wrapText w maxW text)
    ∧ (∀ (w : List Char → Int) (maxW : Int) (ts : List (List Char))
        (cur : List Char),
        wrapGo w maxW (['\n'] :: ts) cur = cur :: wrapGo w maxW ts []) := by
  refine ⟨?_, ?_, ?_⟩
  · intro w maxW text
    unfold wrapText
    rw [outWords_wrapGo w maxW _ [] (wrap_tokens_shape text), wordsOf_nil,
      List.nil_append, normTokens_splitW_replNL, normTokens_eq_wordsOf]
  · intro w maxW text t hR hL hmem hbig
    have hmem2 : t ∈ normTokens (splitW isSp (replNL text)) := by
      rw [normTokens_splitW_replNL, normTokens_eq_wordsOf]
      exact hmem
    have hmem3 : t ∈ splitW isSp (replNL text) :=
      List.mem_of_mem_filter hmem2
    have hkeep : keepTok t = true := List.of_mem_filter hmem2
    have htne : t ≠ [] := by
      intro he
      rw [he] at hkeep
      simp [keepTok] at hkeep
    have htnl : t ≠ ['\n'] := by
      intro he
      rw [he] at hkeep
      simp [keepTok] at hkeep
    exact mem_wrapGo_oversized w maxW t htne htnl hbig hR hL _ [] hmem3
  · intro w maxW ts cur
    simp [wrapGo]

/-- Witness for C10, with the character count as the font metric and page
width 3: the input `abcd ef` has the oversized word `abcd`, which appears
as an output line of its own. -/
theorem wrapText_preserves_words_witness :
    ('a' :: 'b' :: 'c' :: 'd' :: []) ∈
      wrapText (fun cs => (cs.length : Int)) 3 ("abcd ef".data) := by
  exact wrapText_preserves_words.2.1 (fun cs => (cs.length : Int)) 3
    ("abcd ef".data) ('a' :: 'b' :: 'c' :: 'd' :: [])
    (by intro a b; simp; omega)
    (by intro a b; simp; omega)
    (by decide) (by decide)

end Transearly
